import Mathlib

/-!
Verification development for the cwtr crypto-news pipeline.

The definitions below are a shallow embedding of the Python sources:
text normalisation and orchestration from src/main.py, the
deduplication / persistence / query layer from
src/db/postgres_connector.py, and the request model of the search
endpoint from src/api/main.py.  Machine-level details that the claims
depend on (Python regex semantics of the two re.sub calls, SQL NULL
comparison semantics, Postgres ON CONFLICT behaviour, Python sort
raising TypeError on None keys, Python attribute lookup) are modelled
explicitly.
-/

namespace Cwtr

/-! ### Python string primitives used by clean_content (src/main.py lines 22-27) -/

/-- ASCII whitespace class of Python (both the regex class backslash-s and
str.split with no arguments): space, tab, newline, carriage return,
vertical tab, form feed. -/
def isPySpace (c : Char) : Bool :=
  c = ' ' || c = '\t' || c = '\n' || c = '\r' || c = '\x0b' || c = '\x0c'

/-- ASCII letter, the class a-zA-Z of the second re.sub pattern. -/
def isAsciiLetter (c : Char) : Bool :=
  ('a' ≤ c && c ≤ 'z') || ('A' ≤ c && c ≤ 'Z')

/-- Python str.lower restricted to ASCII: map A-Z to a-z, leave the rest. -/
def pyLower (c : Char) : Char :=
  if 'A' ≤ c && c ≤ 'Z' then Char.ofNat (c.toNat + 32) else c

/-- Length of the leftmost match of the regex http backslash-S-plus
alternated with www dot backslash-S-plus at the head of the character
list, or 0 when neither alternative matches there.  The h-branch is
tried first (alternation order of the pattern in clean_content); the
dot of the w-branch matches any character except a newline; both
branches require at least one non-space character after the literal
part, and the plus is greedy with nothing following it, so the match
extends over the maximal run of non-space characters. -/
def urlMatchLen (l : List Char) : Nat :=
  match l with
  | 'h' :: 't' :: 't' :: 'p' :: rest =>
      let k := (rest.takeWhile (fun c => !isPySpace c)).length
      if k = 0 then 0 else 4 + k
  | 'w' :: 'w' :: 'w' :: d :: rest =>
      if d = '\n' then 0 else
      let k := (rest.takeWhile (fun c => !isPySpace c)).length
      if k = 0 then 0 else 4 + k
  | _ => 0

/-- Fuel-indexed scanner behind stripUrls.  Every step consumes at least
one character of the list, so fuel equal to the length of the list is
always enough and the zero-fuel branch is unreachable from stripUrls. -/
def stripUrlsFuel : Nat → List Char → List Char
  | _, [] => []
  | 0, l => l
  | fuel + 1, c :: rest =>
      let n := urlMatchLen (c :: rest)
      if n = 0 then c :: stripUrlsFuel fuel rest
      else stripUrlsFuel fuel ((c :: rest).drop n)

/-- The result of re.sub with the URL pattern and empty replacement:
scan left to right, delete each leftmost non-overlapping match,
resume scanning right after the deleted span. -/
def stripUrls (l : List Char) : List Char :=
  stripUrlsFuel l.length l

/-- The result of re.sub with pattern caret a-zA-Z backslash-s negated and
replacement a single space: every character that is neither an ASCII
letter nor whitespace becomes one space. -/
def subNonAlpha (l : List Char) : List Char :=
  l.map (fun c => if isAsciiLetter c || isPySpace c then c else ' ')

/-- Fuel-indexed scanner behind pySplit.  Every step consumes at least one
character, so fuel equal to the length of the list is always enough and
the zero-fuel branch is unreachable from pySplit. -/
def pySplitFuel : Nat → List Char → List (List Char)
  | _, [] => []
  | 0, _ => []
  | fuel + 1, c :: rest =>
      if isPySpace c then pySplitFuel fuel rest
      else (c :: rest.takeWhile (fun x => !isPySpace x))
             :: pySplitFuel fuel (rest.dropWhile (fun x => !isPySpace x))

/-- Python str.split with no arguments: the maximal runs of non-whitespace
characters, in order; leading, trailing and repeated whitespace produce
no empty words. -/
def pySplit (l : List Char) : List (List Char) :=
  pySplitFuel l.length l

/-- Joining a list of words with a single space between consecutive words,
as the join of the single-space string does in clean_content. -/
def joinSpace : List (List Char) → List Char
  | [] => []
  | [w] => w
  | w :: x :: ws => w ++ ' ' :: joinSpace (x :: ws)

/-- The clean_content function of src/main.py: strip URL-like tokens,
replace every non-letter non-whitespace character by a space, collapse
whitespace via split and join, and lowercase. -/
def clean_content (s : String) : String :=
  String.mk ((joinSpace (pySplit (subNonAlpha (stripUrls s.data)))).map pyLower)

/-! ### Article records -/

/-- Embedding vector; coordinate values are abstracted to integers, since
no claim depends on the arithmetic of single coordinates. -/
abbrev Vec := List Int

/-- An article dict as produced by the source scrapers and passed through
src/main.py: publishedAt is the raw scraper value, a string or None
(decrypt.py uses article.get with no default); clean_content is filled
in by filter_articles_by_time. -/
structure RawArticle where
  id : String
  slug : String
  title : String
  content : String
  clean_content : String := ""
  publishedAt : Option String
  authorName : Option String := none
  category : Option String := none
  sourceName : String
  sourceUrl : String := ""
  imageUrl : Option String := none
  articleUrl : Option String := none
  tags : List String := []
deriving Repr, DecidableEq

/-! ### Fetch orchestration (src/main.py) -/

/-- filter_articles_by_time of src/main.py: the date-based exclusion in its
body is commented out in this source version, so every collected
article is appended to the output; the loop still derives clean_content
from content for each article.  past_minutes only feeds the cutoff
computation whose use is commented out. -/
def filter_articles_by_time (articles : List RawArticle) (past_minutes : Nat) :
    List RawArticle :=
  articles.map (fun a => { a with clean_content := clean_content a.content })

/-- Outcome of the in-place list sort at the end of run_all_scrapers:
either the sorted batch, or the TypeError that Python raises when a
comparison involves a None key. -/
inductive SortOutcome
  | ok (batch : List RawArticle)
  | typeErr
deriving Repr, DecidableEq

/-- Comparison used by the sort in run_all_scrapers, descending on the raw
publishedAt string (reverse equals True with key publishedAt). -/
def pubDescLe (a b : RawArticle) : Bool :=
  decide ((b.publishedAt.getD "") ≤ (a.publishedAt.getD ""))

/-- The sort filtered_articles.sort with key publishedAt and reverse True:
in a list of two or more elements every element takes part in at least
one comparison, and None is unordered against both str and None, so one
missing key raises TypeError; with every key present the string keys
are ordered descending. -/
def sortByPublishedAtDesc (l : List RawArticle) : SortOutcome :=
  if 2 ≤ l.length && l.any (fun a => a.publishedAt.isNone) then .typeErr
  else .ok (l.mergeSort pubDescLe)

/-- run_all_scrapers after the asyncio gather has produced the per-source
result lists (a failed source contributes an empty list): concatenate
them in scraper order, pass them through filter_articles_by_time with
the configured past_period, and sort by publishedAt descending. -/
def run_all_scrapers (results : List (List RawArticle)) (past_period : Nat) :
    SortOutcome :=
  sortByPublishedAtDesc (filter_articles_by_time results.flatten past_period)

/-! ### Deduplication and persistence (src/db/postgres_connector.py) -/

/-- A candidate article as the persistence layer sees it: publishedAt is
the timestamp value the store would hold for the row (none maps to SQL
NULL). -/
structure Article where
  id : String
  slug : String
  title : String
  content : String
  clean_content : String
  publishedAt : Option Int
  authorName : Option String := none
  category : Option String := none
  sourceName : String
  sourceUrl : Option String := none
  imageUrl : Option String := none
  articleUrl : Option String := none
  tags : List String := []
deriving Repr, DecidableEq

/-- A persisted row of the articles table: the candidate columns plus the
embeddings vector column (createdAt and updatedAt are server-assigned
timestamps and are not modelled; no claim mentions them). -/
structure Row extends Article where
  embeddings : Vec
deriving Repr, DecidableEq

/-- The value row built for a novel candidate and its embedding. -/
def rowOfArticle (a : Article) (e : Vec) : Row :=
  { a with embeddings := e }

/-- Does some stored row match the candidate on one of the three novelty
keys, as the SELECT inside check_duplicates asks. -/
def matchesExisting (db : List Row) (a : Article) : Bool :=
  db.any (fun r =>
    r.id = a.id
    || (r.slug = a.slug && r.sourceName = a.sourceName)
    || (r.title = a.title && r.sourceName = a.sourceName))

/-- check_duplicates of PostgresConnector: keep exactly the candidates that
match no stored row; candidates are never compared against one
another. -/
def check_duplicates (db : List Row) (articles : List Article) : List Article :=
  articles.filter (fun a => !matchesExisting db a)

/-! ### Embedding batching (get_embeddings and the loop in save_articles) -/

/-- Fuel-indexed chunking; every step consumes at least one element, so
fuel equal to the length of the list is always enough. -/
def chunk20Fuel : Nat → List α → List (List α)
  | _, [] => []
  | 0, _ => []
  | fuel + 1, a :: rest =>
      ((a :: rest).take 20) :: chunk20Fuel fuel ((a :: rest).drop 20)

/-- The slices new_articles from i to i plus batch_size taken by the loop
in save_articles with batch_size equal to twenty: successive chunks of
twenty texts, the last chunk possibly shorter. -/
def chunk20 (l : List α) : List (List α) :=
  chunk20Fuel l.length l

/-- The failure modes of save_articles that the claims mention: an
embedding-API failure, a unique-constraint violation raised by the
INSERT, and the Postgres error raised when ON CONFLICT DO UPDATE would
affect one row twice in a single command. -/
inductive SaveErr
  | embedFail
  | uniqueViolation
  | onConflictTwice
deriving Repr, DecidableEq

/-- The batching loop of save_articles: one call of get_embeddings per
chunk, in order, extending all_embeddings with each answer; the first
failing call raises out of the loop, so nothing after it runs. -/
def embedChunks (get_embeddings : List String → Except Unit (List Vec)) :
    List (List String) → Except Unit (List Vec)
  | [] => .ok []
  | c :: cs =>
      match get_embeddings c with
      | .error e => .error e
      | .ok vs =>
          match embedChunks get_embeddings cs with
          | .error e => .error e
          | .ok rest => .ok (vs ++ rest)

/-- Embeddings of a text sequence as save_articles computes them: the
get_embeddings calls over the chunks of twenty, concatenated. -/
def embedBatched (get_embeddings : List String → Except Unit (List Vec))
    (texts : List String) : Except Unit (List Vec) :=
  embedChunks get_embeddings (chunk20 texts)

/-! ### The INSERT ... ON CONFLICT of save_articles -/

/-- One row rewritten by the DO UPDATE arm: content, clean_content and
embeddings are refreshed from the excluded row; id, slug, title and
the descriptive columns are untouched (updatedAt is a server
timestamp, not modelled). -/
def updateRow (r v : Row) : Row :=
  { r with content := v.content, clean_content := v.clean_content,
           embeddings := v.embeddings }

/-- Effect of the multi-row INSERT ... ON CONFLICT (id) DO UPDATE of
save_articles, processing the value rows in order against the table db.
touched holds the ids of rows already inserted or updated by this
command: a conflict with such a row raises the Postgres error about
affecting one row twice.  A conflict on the slug+sourceName or the
title+sourceName unique constraint is not covered by the conflict
target (id), so it raises a unique-constraint violation that aborts the
whole statement.  The DO UPDATE arm applies only under the WHERE guard,
which re-tests the three novelty keys between the conflicting stored
row and the excluded row (its first disjunct, id equality, always holds
under conflict target id). -/
def insertRows (db : List Row) (touched : List String) :
    List Row → Except SaveErr (List Row)
  | [] => .ok db
  | v :: vs =>
      match db.find? (fun r => r.id = v.id) with
      | some r0 =>
          if touched.contains r0.id then .error .onConflictTwice
          else if r0.id = v.id
               || (r0.slug = v.slug && r0.sourceName = v.sourceName)
               || (r0.title = v.title && r0.sourceName = v.sourceName) then
            insertRows (db.map (fun r => if r.id = v.id then updateRow r v else r))
              (r0.id :: touched) vs
          else
            insertRows db touched vs
      | none =>
          if db.any (fun r => r.slug = v.slug && r.sourceName = v.sourceName) then
            .error .uniqueViolation
          else if db.any (fun r => r.title = v.title && r.sourceName = v.sourceName) then
            .error .uniqueViolation
          else
            insertRows (db ++ [v]) (v.id :: touched) vs

/-- save_articles of PostgresConnector against a committed table db:
filter the batch to novel candidates with check_duplicates, return
early when none are left, embed the novel texts in chunks of twenty,
zip candidates with embeddings into value rows (Python zip stops at the
shorter list), execute the single INSERT, and commit.  A raised error
(embedding failure or INSERT error) reaches the except clause, which
rolls the transaction back — the committed table is exactly as before
the call — and re-raises.  The first component is the committed table
after the call; the second is the surfaced error, if any. -/
def save_articles (get_embeddings : List String → Except Unit (List Vec))
    (db : List Row) (articles : List Article) : List Row × Option SaveErr :=
  let new_articles := check_duplicates db articles
  if new_articles.isEmpty then (db, none)
  else
    match embedBatched get_embeddings (new_articles.map (fun a => a.clean_content)) with
    | .error _ => (db, some .embedFail)
    | .ok all_embeddings =>
        let values := (new_articles.zip all_embeddings).map
          (fun p => rowOfArticle p.1 p.2)
        match insertRows db [] values with
        | .error e => (db, some e)
        | .ok db1 => (db1, none)

/-! ### Semantic search (semantic_search of PostgresConnector) -/

/-- Date-window clause of semantic_search: each supplied bound contributes
a SQL comparison on publishedAt; a NULL publishedAt never satisfies a
comparison, so a row without a date passes exactly when no bound is
supplied. -/
def dateFilter (published_after published_before : Option Int) (db : List Row) :
    List Row :=
  db.filter (fun r =>
    (match published_after with
     | none => true
     | some t => match r.publishedAt with
                 | none => false
                 | some p => decide (t ≤ p))
    &&
    (match published_before with
     | none => true
     | some t => match r.publishedAt with
                 | none => false
                 | some p => decide (p ≤ t)))

/-- semantic_search of PostgresConnector: embed the prompt (the code takes
element zero of the get_embeddings answer, so an empty answer raises an
IndexError), score every row in the date window by one minus the cosine
distance of its embeddings column to the prompt embedding, order by
similarity descending and keep the top limit rows.  cosDist abstracts
the pgvector distance operator as a function on vectors. -/
def semantic_search (cosDist : Vec → Vec → ℚ)
    (get_embeddings : List String → Except Unit (List Vec))
    (db : List Row) (prompt : String) (lim : Nat)
    (published_after published_before : Option Int) :
    Except Unit (List (Row × ℚ)) :=
  match get_embeddings [prompt] with
  | .error e => .error e
  | .ok [] => .error ()
  | .ok (prompt_embedding :: _) =>
      let scored := (dateFilter published_after published_before db).map
        (fun r => (r, 1 - cosDist r.embeddings prompt_embedding))
      .ok ((scored.mergeSort (fun a b => decide (b.2 ≤ a.2))).take lim)

/-! ### The search endpoint (src/api/main.py) -/

/-- Request body model SearchRequest of src/api/main.py, with its declared
fields and their defaults; no limit, published_after or
published_before field is declared. -/
structure SearchRequest where
  prompt : String
  system_prompt : String :=
    "You are a helpful assistant that provides insights based on crypto news articles."
  model : String := "gpt-4o-mini"
deriving Repr, DecidableEq

/-- Python attribute lookup on a SearchRequest instance: exactly the three
declared pydantic fields resolve (pydantic ignores undeclared keys of
the request body rather than storing them); any other attribute name
raises AttributeError, modelled as none. -/
def SearchRequest.getattr (r : SearchRequest) : String → Option String
  | "prompt" => some r.prompt
  | "system_prompt" => some r.system_prompt
  | "model" => some r.model
  | _ => none

/-- Outcome of one call of the search endpoint at the HTTP boundary. -/
inductive ApiOutcome
  | ok (answer : String) (sources : List (String × Option String))
  | httpError (status : Nat)
deriving Repr, DecidableEq

/-- Handler of POST articles search: inside the try block, after the
PostgresConnector is constructed, the call of db.semantic_search names
request.limit, request.published_after and request.published_before;
evaluating the first of these attribute lookups raises AttributeError,
and the except clause turns any exception into an HTTPException with
status 500.  The remainder of the body — the search itself, the
generation call and the source dedup — is abstracted as happyPath,
invoked only when all three lookups resolve. -/
def articles_search_endpoint (happyPath : SearchRequest → ApiOutcome)
    (request : SearchRequest) : ApiOutcome :=
  match request.getattr "limit" with
  | none => .httpError 500
  | some _ =>
      match request.getattr "published_after" with
      | none => .httpError 500
      | some _ =>
          match request.getattr "published_before" with
          | none => .httpError 500
          | some _ => happyPath request

/-- Decidable equality on Except values, used to evaluate the model on
concrete inputs. -/
instance {e a : Type} [DecidableEq e] [DecidableEq a] : DecidableEq (Except e a) :=
  fun x y =>
    match x, y with
    | .error e1, .error e2 =>
        if h : e1 = e2 then .isTrue (congrArg Except.error h)
        else .isFalse (fun hc => h (Except.error.inj hc))
    | .ok v1, .ok v2 =>
        if h : v1 = v2 then .isTrue (congrArg Except.ok h)
        else .isFalse (fun hc => h (Except.ok.inj hc))
    | .error _, .ok _ => .isFalse (fun hc => Except.noConfusion hc)
    | .ok _, .error _ => .isFalse (fun hc => Except.noConfusion hc)

/-! ### The recency window as the specification words it -/

/-- The batch assembly as the specification sentence describes it, written
from the spec for comparison with filter_articles_by_time: derive
clean_content for every article, then keep an article exactly when its
publishedAt parses to a time not older than the cutoff (now minus the
window), or when the date is missing or unparsable (such articles are
retained).  parse abstracts date parsing, returning none on failure. -/
def specRecencyBatch (parse : String → Option Int) (now : Int) (past_minutes : Nat)
    (articles : List RawArticle) : List RawArticle :=
  (articles.map (fun a => { a with clean_content := clean_content a.content })).filter
    (fun a =>
      match a.publishedAt.bind parse with
      | none => true
      | some t => decide (now - past_minutes ≤ t))

/-! ### Concrete fixtures used by witnesses and counterexamples -/

/-- Embedding oracle that answers every batch with one constant vector per
text, in order. -/
def geConst : List String → Except Unit (List Vec) :=
  fun ts => .ok (ts.map (fun _ => [1]))

/-- Embedding oracle whose calls always fail. -/
def geFail : List String → Except Unit (List Vec) :=
  fun _ => .error ()

/-- Constant cosine-distance operator for concrete evaluations. -/
def cosZero : Vec → Vec → ℚ := fun _ _ => 0

/-- First candidate of the duplicate-title scenario of the spec. -/
def a1c : Article :=
  { id := "a1", slug := "s1", title := "Bitcoin rallies", content := "body one",
    clean_content := "body one", publishedAt := some 100, sourceName := "X" }

/-- Second candidate of the duplicate-title scenario: same title and
sourceName as the first, different id and slug. -/
def a2c : Article :=
  { id := "a2", slug := "s2", title := "Bitcoin rallies", content := "body two",
    clean_content := "body two", publishedAt := some 101, sourceName := "X" }

/-- A plain novel candidate. -/
def a3c : Article :=
  { id := "b1", slug := "sb1", title := "Ether climbs", content := "body three",
    clean_content := "body three", publishedAt := some 102, sourceName := "Y" }

/-- A stored row without a publication date. -/
def rowNullR : Row :=
  { id := "rn", slug := "srn", title := "No date", content := "c", clean_content := "c",
    publishedAt := none, sourceName := "S", embeddings := [1] }

/-- A stored row with a publication date. -/
def rowDatedR : Row :=
  { id := "rd", slug := "srd", title := "Dated", content := "c", clean_content := "c",
    publishedAt := some 500, sourceName := "S", embeddings := [1] }

/-- A collected article with a parseable, old publication date. -/
def rawOldC8 : RawArticle :=
  { id := "o1", slug := "so1", title := "Old", content := "Old news!",
    publishedAt := some "2020-01-01T00:00:00Z", sourceName := "S" }

/-- A date parser for the counterexample: every string parses to time 0. -/
def parseC8 : String → Option Int := fun _ => some 0

/-- A collected article whose publishedAt is missing (as decrypt.py can
produce). -/
def rawNone9 : RawArticle :=
  { id := "n1", slug := "sn1", title := "NoDate", content := "xx",
    publishedAt := none, sourceName := "S" }

/-- A collected article with a publishedAt string. -/
def rawSome9 : RawArticle :=
  { id := "m1", slug := "sm1", title := "HasDate", content := "yy",
    publishedAt := some "2024-05-05T00:00:00Z", sourceName := "S" }

/-! ### Derived notions used by the statements below -/

/-- Word lists this development feeds to joinSpace: every word nonempty and
free of whitespace-class characters. -/
def GoodWords (ws : List (List Char)) : Prop :=
  ∀ w ∈ ws, w ≠ [] ∧ ∀ c ∈ w, isPySpace c = false

/-- Adjacent characters are never both spaces. -/
def NoDoubleSpace (c d : Char) : Prop := ¬(c = ' ' ∧ d = ' ')

/-- The word list clean_content builds before the final join and
lowercase. -/
def cleanWords (s : String) : List (List Char) :=
  pySplit (subNonAlpha (stripUrls s.data))

/-- Equality of the four columns that the three dedup keys mention. -/
def keysEq (r s : Row) : Prop :=
  r.id = s.id ∧ r.slug = s.slug ∧ r.title = s.title ∧ r.sourceName = s.sourceName


/-! ### Lemmas on the text normalisation -/

example : clean_content "Visit https://x.co NOW!! 42 btc" = "visit now btc" := by decide

example : clean_content "www. hello  World" = "www hello world" := by decide

example : clean_content "see www.example.com rally" = "see rally" := by decide

theorem toNat_ofNat_of_valid {n : Nat} (h : n.isValidChar) :
    (Char.ofNat n).toNat = n := by
  simp only [Char.ofNat, dif_pos h, Char.ofNatAux, Char.toNat]
  rfl

theorem char_le_iff_toNat {a b : Char} : a ≤ b ↔ a.toNat ≤ b.toNat := by
  rw [Char.le_def]
  exact Iff.rfl

theorem toNat_of_upper {c : Char} (h1 : 'A' ≤ c) (h2 : c ≤ 'Z') :
    65 ≤ c.toNat ∧ c.toNat ≤ 90 := by
  constructor
  · exact char_le_iff_toNat.mp h1
  · exact char_le_iff_toNat.mp h2

theorem pyLower_toNat_of_letter {c : Char} (h : isAsciiLetter c = true) :
    97 ≤ (pyLower c).toNat ∧ (pyLower c).toNat ≤ 122 := by
  unfold isAsciiLetter at h
  unfold pyLower
  by_cases hu : 'A' ≤ c ∧ c ≤ 'Z'
  · have hb := toNat_of_upper hu.1 hu.2
    have hv : (c.toNat + 32).isValidChar := Or.inl (by omega)
    have heq : (Char.ofNat (c.toNat + 32)).toNat = c.toNat + 32 :=
      toNat_ofNat_of_valid hv
    simp only [Bool.and_eq_true, decide_eq_true_eq] at *
    rw [if_pos ⟨hu.1, hu.2⟩, heq]
    omega
  · have hif : ¬('A' ≤ c && c ≤ 'Z') = true := by
      simp only [Bool.and_eq_true, decide_eq_true_eq]
      exact hu
    rw [if_neg hif]
    simp only [Bool.or_eq_true, Bool.and_eq_true, decide_eq_true_eq] at h
    rcases h with hlow | hup
    · exact ⟨char_le_iff_toNat.mp hlow.1, char_le_iff_toNat.mp hlow.2⟩
    · exact absurd hup hu

theorem pyLower_space : pyLower ' ' = ' ' := by decide

theorem pyLower_eq_space {c : Char} (h : pyLower c = ' ') : c = ' ' := by
  unfold pyLower at h
  by_cases hu : ('A' ≤ c && c ≤ 'Z') = true
  · rw [if_pos hu] at h
    simp only [Bool.and_eq_true, decide_eq_true_eq] at hu
    have hb := toNat_of_upper hu.1 hu.2
    have hv : (c.toNat + 32).isValidChar := Or.inl (by omega)
    have heq := toNat_ofNat_of_valid hv
    rw [h] at heq
    have : (' ' : Char).toNat = 32 := by decide
    omega
  · rwa [if_neg hu] at h

theorem isPySpace_space : isPySpace ' ' = true := by decide

theorem mem_subNonAlpha {l : List Char} {c : Char} (h : c ∈ subNonAlpha l) :
    isAsciiLetter c = true ∨ isPySpace c = true := by
  unfold subNonAlpha at h
  rcases List.mem_map.mp h with ⟨x, _, hx⟩
  by_cases hk : (isAsciiLetter x || isPySpace x) = true
  · rw [if_pos hk] at hx
    subst hx
    rcases Bool.or_eq_true_iff.mp hk with h1 | h1
    · exact Or.inl h1
    · exact Or.inr h1
  · rw [if_neg hk] at hx
    subst hx
    exact Or.inr isPySpace_space

theorem pySplitFuel_words :
    ∀ (fuel : Nat) (l : List Char), ∀ w ∈ pySplitFuel fuel l,
      w ≠ [] ∧ (∀ c ∈ w, isPySpace c = false) ∧ (∀ c ∈ w, c ∈ l) := by
  intro fuel
  induction fuel with
  | zero =>
      intro l w hw
      cases l <;> simp [pySplitFuel] at hw
  | succ f ih =>
      intro l w hw
      cases l with
      | nil => simp [pySplitFuel] at hw
      | cons c rest =>
          simp only [pySplitFuel] at hw
          by_cases hc : isPySpace c = true
          · rw [if_pos hc] at hw
            rcases ih rest w hw with ⟨h1, h2, h3⟩
            exact ⟨h1, h2, fun x hx => List.mem_cons_of_mem _ (h3 x hx)⟩
          · rw [if_neg hc] at hw
            rcases List.mem_cons.mp hw with hcur | htail
            · subst hcur
              refine ⟨by simp, ?_, ?_⟩
              · intro x hx
                rcases List.mem_cons.mp hx with hx1 | hx2
                · subst hx1; exact Bool.not_eq_true _ ▸ (by simpa using hc)
                · exact Bool.not_eq_true _ ▸ (by simpa using List.mem_takeWhile_imp hx2)
              · intro x hx
                rcases List.mem_cons.mp hx with hx1 | hx2
                · subst hx1; exact List.mem_cons_self _ _
                · exact List.mem_cons_of_mem _
                    ((List.takeWhile_sublist _).mem hx2)
            · rcases ih _ w htail with ⟨h1, h2, h3⟩
              exact ⟨h1, h2, fun x hx =>
                List.mem_cons_of_mem _ ((List.dropWhile_sublist _).mem (h3 x hx))⟩

theorem goodWords_pySplit (l : List Char) : GoodWords (pySplit l) := by
  intro w hw
  rcases pySplitFuel_words l.length l w hw with ⟨h1, h2, _⟩
  exact ⟨h1, h2⟩

theorem mem_joinSpace :
    ∀ (ws : List (List Char)), ∀ c ∈ joinSpace ws, c = ' ' ∨ ∃ w ∈ ws, c ∈ w := by
  intro ws
  induction ws with
  | nil => intro c hc; simp [joinSpace] at hc
  | cons w rest ih =>
      intro c hc
      cases rest with
      | nil =>
          simp only [joinSpace] at hc
          exact Or.inr ⟨w, List.mem_cons_self _ _, hc⟩
      | cons x rs =>
          simp only [joinSpace] at hc
          rcases List.mem_append.mp hc with hw | hct
          · exact Or.inr ⟨w, List.mem_cons_self _ _, hw⟩
          · rcases List.mem_cons.mp hct with hsp | hrest
            · exact Or.inl hsp
            · rcases ih c hrest with h | ⟨w2, hw2, hc2⟩
              · exact Or.inl h
              · exact Or.inr ⟨w2, List.mem_cons_of_mem _ hw2, hc2⟩

theorem joinSpace_head_not_space {ws : List (List Char)} (hws : GoodWords ws) :
    ∀ c, (joinSpace ws).head? = some c → isPySpace c = false := by
  intro c hc
  cases ws with
  | nil => simp [joinSpace] at hc
  | cons w rest =>
      have hw := hws w (List.mem_cons_self _ _)
      cases rest with
      | nil =>
          simp only [joinSpace] at hc
          exact hw.2 c (List.mem_of_mem_head? hc)
      | cons x rs =>
          simp only [joinSpace] at hc
          cases w with
          | nil => exact absurd rfl hw.1
          | cons a t =>
              simp only [List.cons_append, List.head?_cons, Option.some.injEq] at hc
              subst hc
              exact hw.2 _ (List.mem_cons_self _ _)

theorem joinSpace_getLast_not_space :
    ∀ (ws : List (List Char)), GoodWords ws →
      ∀ c, (joinSpace ws).getLast? = some c → isPySpace c = false := by
  intro ws
  induction ws with
  | nil => intro _ c hc; simp [joinSpace] at hc
  | cons w rest ih =>
      intro hws c hc
      have hw := hws w (List.mem_cons_self _ _)
      cases rest with
      | nil =>
          simp only [joinSpace] at hc
          exact hw.2 c (List.mem_of_mem_getLast? hc)
      | cons x rs =>
          have hgood : GoodWords (x :: rs) := fun u hu => hws u (List.mem_cons_of_mem _ hu)
          have hne : joinSpace (x :: rs) ≠ [] := by
            have hx := hgood x (List.mem_cons_self _ _)
            cases rs with
            | nil => simpa [joinSpace] using hx.1
            | cons y ys =>
                simp only [joinSpace]
                cases x with
                | nil => exact absurd rfl hx.1
                | cons a t => simp
          simp only [joinSpace] at hc
          rw [List.getLast?_append_of_ne_nil _ (by simp)] at hc
          rw [List.getLast?_cons] at hc
          cases hj : (joinSpace (x :: rs)).getLast? with
          | none =>
              exact absurd (List.getLast?_eq_none_iff.mp hj) hne
          | some d =>
              rw [hj] at hc
              simp only [Option.getD_some, Option.some.injEq] at hc
              subst hc
              exact ih hgood _ hj

theorem ne_space_of_not_pySpace {c : Char} (h : isPySpace c = false) : c ≠ ' ' := by
  intro hc
  subst hc
  exact absurd isPySpace_space (by simp [h])

theorem chain_no_space :
    ∀ (w : List Char), (∀ c ∈ w, isPySpace c = false) →
      List.Chain' NoDoubleSpace w := by
  intro w
  induction w with
  | nil => intro _; exact List.chain'_nil
  | cons a t ih =>
      intro h
      refine List.chain'_cons'.mpr ⟨?_, ih fun c hc => h c (List.mem_cons_of_mem _ hc)⟩
      intro b _
      exact fun hab => ne_space_of_not_pySpace (h a (List.mem_cons_self _ _)) hab.1

theorem chain_joinSpace :
    ∀ (ws : List (List Char)), GoodWords ws →
      List.Chain' NoDoubleSpace (joinSpace ws) := by
  intro ws
  induction ws with
  | nil => intro _; exact List.chain'_nil
  | cons w rest ih =>
      intro hws
      have hw := hws w (List.mem_cons_self _ _)
      cases rest with
      | nil => exact chain_no_space w hw.2
      | cons x rs =>
          have hgood : GoodWords (x :: rs) := fun u hu => hws u (List.mem_cons_of_mem _ hu)
          show List.Chain' NoDoubleSpace (w ++ ' ' :: joinSpace (x :: rs))
          refine List.chain'_append.mpr ⟨chain_no_space w hw.2, ?_, ?_⟩
          · refine List.chain'_cons'.mpr ⟨?_, ih hgood⟩
            intro b hb
            have hbs := joinSpace_head_not_space hgood b hb
            exact fun hab => ne_space_of_not_pySpace hbs hab.2
          · intro a ha b hb
            simp only [List.head?_cons, Option.mem_def, Option.some.injEq] at hb
            have has : isPySpace a = false :=
              hw.2 a (List.mem_of_mem_getLast? ha)
            exact fun hab => ne_space_of_not_pySpace has hab.1

theorem clean_content_data (s : String) :
    (clean_content s).data = (joinSpace (cleanWords s)).map pyLower := rfl

theorem cleanWords_letters {s : String} {w : List Char} (hw : w ∈ cleanWords s) :
    ∀ c ∈ w, isAsciiLetter c = true := by
  intro c hc
  rcases pySplitFuel_words _ _ w hw with ⟨_, hns, hmem⟩
  rcases mem_subNonAlpha (hmem c hc) with h | h
  · exact h
  · exact absurd h (by simp [hns c hc])

theorem clean_content_chars {s : String} :
    ∀ c ∈ (clean_content s).data, (97 ≤ c.toNat ∧ c.toNat ≤ 122) ∨ c = ' ' := by
  intro c hc
  rw [clean_content_data] at hc
  rcases List.mem_map.mp hc with ⟨c0, hc0, hcl⟩
  subst hcl
  rcases mem_joinSpace _ c0 hc0 with hsp | ⟨w, hw, hcw⟩
  · subst hsp
    exact Or.inr pyLower_space
  · exact Or.inl (pyLower_toNat_of_letter (cleanWords_letters hw c0 hcw))

theorem clean_content_chain {s : String} :
    List.Chain' NoDoubleSpace (clean_content s).data := by
  rw [clean_content_data]
  rw [List.chain'_map]
  refine (chain_joinSpace _ (goodWords_pySplit _)).imp ?_
  intro a b hab h
  exact hab ⟨pyLower_eq_space h.1, pyLower_eq_space h.2⟩

theorem clean_content_head_not_space {s : String} :
    ∀ c, (clean_content s).data.head? = some c → c ≠ ' ' := by
  intro c hc
  rw [clean_content_data, List.head?_map] at hc
  cases hj : (joinSpace (cleanWords s)).head? with
  | none => rw [hj] at hc; exact absurd hc (by simp)
  | some c0 =>
      rw [hj] at hc
      simp only [Option.map_some', Option.some.injEq] at hc
      subst hc
      intro habs
      exact ne_space_of_not_pySpace
        (joinSpace_head_not_space (goodWords_pySplit _) c0 hj)
        (pyLower_eq_space habs)

theorem clean_content_getLast_not_space {s : String} :
    ∀ c, (clean_content s).data.getLast? = some c → c ≠ ' ' := by
  intro c hc
  rw [clean_content_data, List.getLast?_map] at hc
  cases hj : (joinSpace (cleanWords s)).getLast? with
  | none => rw [hj] at hc; exact absurd hc (by simp)
  | some c0 =>
      rw [hj] at hc
      simp only [Option.map_some', Option.some.injEq] at hc
      subst hc
      intro habs
      exact ne_space_of_not_pySpace
        (joinSpace_getLast_not_space _ (goodWords_pySplit _) c0 hj)
        (pyLower_eq_space habs)

/-! ### Lemmas on the embedding batching -/

theorem chunk20Fuel_nil {α : Type} (f : Nat) : chunk20Fuel f ([] : List α) = [] := by
  cases f <;> rfl

theorem chunk20Fuel_flatten {α : Type} :
    ∀ (fuel : Nat) (l : List α), l.length ≤ fuel →
      (chunk20Fuel fuel l).flatten = l := by
  intro fuel
  induction fuel with
  | zero =>
      intro l hl
      have : l = [] := List.length_eq_zero.mp (Nat.le_zero.mp hl)
      subst this
      rfl
  | succ f ih =>
      intro l hl
      cases l with
      | nil => rfl
      | cons a rest =>
          simp only [chunk20Fuel, List.flatten_cons]
          rw [ih ((a :: rest).drop 20)
            (by simp only [List.length_drop, List.length_cons] at hl ⊢; omega)]
          exact List.take_append_drop 20 (a :: rest)

theorem chunk20_flatten {α : Type} (l : List α) : (chunk20 l).flatten = l :=
  chunk20Fuel_flatten l.length l le_rfl

theorem chunk20Fuel_mem {α : Type} :
    ∀ (fuel : Nat) (l : List α), ∀ c ∈ chunk20Fuel fuel l,
      c ≠ [] ∧ c.length ≤ 20 := by
  intro fuel
  induction fuel with
  | zero =>
      intro l c hc
      cases l <;> simp [chunk20Fuel] at hc
  | succ f ih =>
      intro l c hc
      cases l with
      | nil => simp [chunk20Fuel] at hc
      | cons a rest =>
          simp only [chunk20Fuel] at hc
          rcases List.mem_cons.mp hc with h1 | h2
          · subst h1
            refine ⟨by simp, ?_⟩
            exact List.length_take_le 20 (a :: rest)
          · exact ih _ c h2

theorem chunk20Fuel_dropLast {α : Type} :
    ∀ (fuel : Nat) (l : List α), l.length ≤ fuel →
      ∀ c ∈ (chunk20Fuel fuel l).dropLast, c.length = 20 := by
  intro fuel
  induction fuel with
  | zero =>
      intro l hl c hc
      have : l = [] := List.length_eq_zero.mp (Nat.le_zero.mp hl)
      subst this
      simp [chunk20Fuel] at hc
  | succ f ih =>
      intro l hl c hc
      cases l with
      | nil => simp [chunk20Fuel] at hc
      | cons a rest =>
          simp only [chunk20Fuel] at hc
          by_cases hd : chunk20Fuel f ((a :: rest).drop 20) = []
          · rw [hd] at hc
            simp at hc
          · rw [List.dropLast_cons_of_ne_nil hd] at hc
            rcases List.mem_cons.mp hc with h1 | h2
            · subst h1
              have hlen : 20 < (a :: rest).length := by
                by_contra hle
                push_neg at hle
                have : (a :: rest).drop 20 = [] := List.drop_eq_nil_of_le hle
                rw [this, chunk20Fuel_nil] at hd
                exact hd rfl
              simp only [List.length_take, List.length_cons] at hlen ⊢
              omega
            · exact ih _
                (by simp only [List.length_drop, List.length_cons] at hl ⊢; omega) c h2

theorem chunk20_mem {α : Type} (l : List α) :
    ∀ c ∈ chunk20 l, c ≠ [] ∧ c.length ≤ 20 :=
  chunk20Fuel_mem l.length l

theorem chunk20_dropLast {α : Type} (l : List α) :
    ∀ c ∈ (chunk20 l).dropLast, c.length = 20 :=
  chunk20Fuel_dropLast l.length l le_rfl

theorem embedChunks_ok_pointwise {ge : List String → Except Unit (List Vec)}
    {f : String → Vec} (hok : ∀ ts vs, ge ts = .ok vs → vs = ts.map f) :
    ∀ (cs : List (List String)) (vs : List Vec),
      embedChunks ge cs = .ok vs → vs = cs.flatten.map f := by
  intro cs
  induction cs with
  | nil =>
      intro vs h
      simp only [embedChunks, Except.ok.injEq] at h
      subst h
      rfl
  | cons c cs ih =>
      intro vs h
      simp only [embedChunks] at h
      cases hge : ge c with
      | error e => rw [hge] at h; exact absurd h (by simp)
      | ok v1 =>
          rw [hge] at h
          cases hrec : embedChunks ge cs with
          | error e => rw [hrec] at h; exact absurd h (by simp)
          | ok rest =>
              rw [hrec] at h
              simp only [Except.ok.injEq] at h
              subst h
              rw [ih rest hrec, hok c v1 hge]
              simp

theorem embedChunks_ok_length {ge : List String → Except Unit (List Vec)}
    (hlen : ∀ ts vs, ge ts = .ok vs → vs.length = ts.length) :
    ∀ (cs : List (List String)) (vs : List Vec),
      embedChunks ge cs = .ok vs → vs.length = cs.flatten.length := by
  intro cs
  induction cs with
  | nil =>
      intro vs h
      simp only [embedChunks, Except.ok.injEq] at h
      subst h
      rfl
  | cons c cs ih =>
      intro vs h
      simp only [embedChunks] at h
      cases hge : ge c with
      | error e => rw [hge] at h; exact absurd h (by simp)
      | ok v1 =>
          rw [hge] at h
          cases hrec : embedChunks ge cs with
          | error e => rw [hrec] at h; exact absurd h (by simp)
          | ok rest =>
              rw [hrec] at h
              simp only [Except.ok.injEq] at h
              subst h
              simp [hlen c v1 hge, ih rest hrec]

theorem embedChunks_error_of_mem {ge : List String → Except Unit (List Vec)}
    {c : List String} {e : Unit} (hc : ge c = .error e) :
    ∀ (cs : List (List String)), c ∈ cs →
      ∃ e2, embedChunks ge cs = .error e2 := by
  intro cs
  induction cs with
  | nil => intro h; simp at h
  | cons c0 cs ih =>
      intro hmem
      rcases List.mem_cons.mp hmem with h1 | h2
      · subst h1
        exact ⟨e, by simp [embedChunks, hc]⟩
      · simp only [embedChunks]
        cases hge : ge c0 with
        | error e0 => exact ⟨e0, rfl⟩
        | ok v1 =>
            rcases ih h2 with ⟨e2, he2⟩
            exact ⟨e2, by rw [he2]⟩

theorem embedBatched_ok_pointwise {ge : List String → Except Unit (List Vec)}
    {f : String → Vec} (hok : ∀ ts vs, ge ts = .ok vs → vs = ts.map f)
    {texts : List String} {vs : List Vec}
    (h : embedBatched ge texts = .ok vs) : vs = texts.map f := by
  have := embedChunks_ok_pointwise hok (chunk20 texts) vs h
  rwa [chunk20_flatten] at this

theorem embedBatched_ok_length {ge : List String → Except Unit (List Vec)}
    (hlen : ∀ ts vs, ge ts = .ok vs → vs.length = ts.length)
    {texts : List String} {vs : List Vec}
    (h : embedBatched ge texts = .ok vs) : vs.length = texts.length := by
  have := embedChunks_ok_length hlen (chunk20 texts) vs h
  rwa [chunk20_flatten] at this

theorem embedBatched_error {ge : List String → Except Unit (List Vec)}
    {texts : List String} {c : List String} {e : Unit}
    (hmem : c ∈ chunk20 texts) (hc : ge c = .error e) :
    ∃ e2, embedBatched ge texts = .error e2 :=
  embedChunks_error_of_mem hc (chunk20 texts) hmem

/-! ### Lemmas on deduplication and persistence -/

theorem keysEq_refl (r : Row) : keysEq r r := ⟨rfl, rfl, rfl, rfl⟩

theorem keysEq_trans {a b c : Row} (h1 : keysEq a b) (h2 : keysEq b c) : keysEq a c :=
  ⟨h1.1.trans h2.1, h1.2.1.trans h2.2.1, h1.2.2.1.trans h2.2.2.1, h1.2.2.2.trans h2.2.2.2⟩

theorem keysEq_updateRow (r v : Row) : keysEq (updateRow r v) r :=
  ⟨rfl, rfl, rfl, rfl⟩

theorem matchesExisting_false {db : List Row} {a : Article}
    (h : matchesExisting db a = false) :
    ∀ r ∈ db, r.id ≠ a.id ∧ ¬(r.slug = a.slug ∧ r.sourceName = a.sourceName)
      ∧ ¬(r.title = a.title ∧ r.sourceName = a.sourceName) := by
  intro r hr
  have hx := List.any_eq_false.mp h r hr
  simp only [Bool.or_eq_true, Bool.and_eq_true, decide_eq_true_eq] at hx
  push_neg at hx
  refine ⟨?_, ?_, ?_⟩ <;> tauto

theorem matchesExisting_mono {db out : List Row}
    (hpres : ∀ r ∈ db, ∃ s ∈ out, keysEq s r) {a : Article}
    (h : matchesExisting db a = true) : matchesExisting out a = true := by
  rcases List.any_eq_true.mp h with ⟨r, hr, hcond⟩
  rcases hpres r hr with ⟨s, hs, hk⟩
  refine List.any_eq_true.mpr ⟨s, hs, ?_⟩
  simp only [Bool.or_eq_true, Bool.and_eq_true, decide_eq_true_eq] at hcond ⊢
  rcases hk with ⟨k1, k2, k3, k4⟩
  rcases hcond with (h1 | h2) | h3
  · exact Or.inl (Or.inl (k1.trans h1))
  · exact Or.inl (Or.inr ⟨k2.trans h2.1, k4.trans h2.2⟩)
  · exact Or.inr ⟨k3.trans h3.1, k4.trans h3.2⟩

theorem matchesExisting_of_id {out : List Row} {s : Row} (hs : s ∈ out)
    {a : Article} (hid : s.id = a.id) : matchesExisting out a = true := by
  refine List.any_eq_true.mpr ⟨s, hs, ?_⟩
  simp only [Bool.or_eq_true, Bool.and_eq_true, decide_eq_true_eq]
  exact Or.inl (Or.inl hid)

theorem insertRows_ok_keys :
    ∀ (vs db : List Row) (touched : List String) (out : List Row),
      insertRows db touched vs = .ok out →
      (∀ r ∈ db, ∃ s ∈ out, keysEq s r) ∧ (∀ v ∈ vs, ∃ s ∈ out, s.id = v.id) := by
  intro vs
  induction vs with
  | nil =>
      intro db touched out h
      simp only [insertRows, Except.ok.injEq] at h
      subst h
      exact ⟨fun r hr => ⟨r, hr, keysEq_refl r⟩, fun v hv => by simp at hv⟩
  | cons v vs ih =>
      intro db touched out h
      simp only [insertRows] at h
      split at h
      case _ r0 hf =>
        split at h
        · exact absurd h (by simp)
        · have hid : r0.id = v.id := by simpa using List.find?_some hf
          split at h
          · rcases ih _ _ _ h with ⟨A2, B2⟩
            constructor
            · intro r hr
              have hmem : (if r.id = v.id then updateRow r v else r)
                  ∈ db.map (fun r => if r.id = v.id then updateRow r v else r) :=
                List.mem_map_of_mem _ hr
              rcases A2 _ hmem with ⟨s, hs, hk⟩
              refine ⟨s, hs, keysEq_trans hk ?_⟩
              by_cases hcase : r.id = v.id
              · rw [if_pos hcase]; exact keysEq_updateRow r v
              · rw [if_neg hcase]; exact keysEq_refl r
            · intro w hw
              rcases List.mem_cons.mp hw with h1 | h2
              · subst h1
                have hr0 : r0 ∈ db := List.mem_of_find?_eq_some hf
                have hmem : (if r0.id = w.id then updateRow r0 w else r0)
                    ∈ db.map (fun r => if r.id = w.id then updateRow r w else r) :=
                  List.mem_map_of_mem _ hr0
                rw [if_pos hid] at hmem
                rcases A2 _ hmem with ⟨s, hs, hk⟩
                exact ⟨s, hs, hk.1.trans hid⟩
              · exact B2 w h2
          · rcases ih _ _ _ h with ⟨A2, B2⟩
            refine ⟨A2, ?_⟩
            intro w hw
            rcases List.mem_cons.mp hw with h1 | h2
            · subst h1
              have hr0 : r0 ∈ db := List.mem_of_find?_eq_some hf
              rcases A2 r0 hr0 with ⟨s, hs, hk⟩
              exact ⟨s, hs, hk.1.trans hid⟩
            · exact B2 w h2
      case _ hf =>
        split at h
        · exact absurd h (by simp)
        · split at h
          · exact absurd h (by simp)
          · rcases ih _ _ _ h with ⟨A2, B2⟩
            constructor
            · intro r hr
              exact A2 r (List.mem_append_left _ hr)
            · intro w hw
              rcases List.mem_cons.mp hw with h1 | h2
              · subst h1
                rcases A2 w (List.mem_append_right _ (List.mem_singleton.mpr rfl))
                  with ⟨s, hs, hk⟩
                exact ⟨s, hs, hk.1⟩
              · exact B2 w h2

theorem exists_zip_left {α β : Type} :
    ∀ (l1 : List α) (l2 : List β), l1.length ≤ l2.length →
      ∀ a ∈ l1, ∃ b, (a, b) ∈ l1.zip l2 := by
  intro l1
  induction l1 with
  | nil => intro l2 _ a ha; simp at ha
  | cons x t ih =>
      intro l2 hl a ha
      cases l2 with
      | nil => simp at hl
      | cons y t2 =>
          rcases List.mem_cons.mp ha with h1 | h2
          · subst h1
            exact ⟨y, List.mem_cons_self _ _⟩
          · rcases ih t2 (by simp at hl ⊢; omega) a h2 with ⟨b, hb⟩
            exact ⟨b, List.mem_cons_of_mem _ hb⟩

theorem save_articles_ok_matches
    {ge : List String → Except Unit (List Vec)}
    (hlen : ∀ ts vs, ge ts = .ok vs → vs.length = ts.length)
    {db : List Row} {batch : List Article} {db1 : List Row}
    (h : save_articles ge db batch = (db1, none)) :
    ∀ a ∈ batch, matchesExisting db1 a = true := by
  intro a ha
  simp only [save_articles] at h
  split at h
  · rename_i hna
    rw [Prod.mk.injEq] at h
    rw [← h.1]
    have hnil : check_duplicates db batch = [] := List.isEmpty_iff.mp hna
    have := List.filter_eq_nil_iff.mp hnil a ha
    simpa using this
  · split at h
    · rw [Prod.mk.injEq] at h
      exact absurd h.2 (by simp)
    · next embs hemb =>
        split at h
        · rw [Prod.mk.injEq] at h
          exact absurd h.2 (by simp)
        · next out hins =>
            rw [Prod.mk.injEq] at h
            rw [← h.1]
            rcases insertRows_ok_keys _ _ _ _ hins with ⟨A2, B2⟩
            by_cases hm : matchesExisting db a = true
            · exact matchesExisting_mono A2 hm
            · have hmem : a ∈ check_duplicates db batch := by
                unfold check_duplicates
                refine List.mem_filter.mpr ⟨ha, ?_⟩
                simp only [Bool.not_eq_true] at hm ⊢
                simp [hm]
              have hlen2 : embs.length = (check_duplicates db batch).length := by
                have := embedBatched_ok_length hlen hemb
                simpa using this
              rcases exists_zip_left _ embs (le_of_eq hlen2.symm) a hmem with ⟨b, hb⟩
              have hv : rowOfArticle a b ∈
                  ((check_duplicates db batch).zip embs).map (fun p => rowOfArticle p.1 p.2) :=
                List.mem_map_of_mem _ hb
              rcases B2 _ hv with ⟨s, hs, hsid⟩
              exact matchesExisting_of_id hs hsid

theorem save_articles_err {ge : List String → Except Unit (List Vec)}
    {db : List Row} {batch : List Article} {db1 : List Row} {e : SaveErr}
    (h : save_articles ge db batch = (db1, some e)) : db1 = db := by
  simp only [save_articles] at h
  split at h
  · rw [Prod.mk.injEq] at h
    exact absurd h.2 (by simp)
  · split at h
    · rw [Prod.mk.injEq] at h
      exact h.1.symm
    · split at h
      · rw [Prod.mk.injEq] at h
        exact h.1.symm
      · rw [Prod.mk.injEq] at h
        exact absurd h.2 (by simp)

/-! ### Further helper lemmas -/

theorem chunk20_small {α : Type} (l : List α) (h1 : l ≠ []) (h2 : l.length ≤ 20) :
    chunk20 l = [l] := by
  unfold chunk20
  cases l with
  | nil => exact absurd rfl h1
  | cons a rest =>
      simp only [List.length_cons, chunk20Fuel]
      rw [List.take_of_length_le (by simpa using h2),
        List.drop_eq_nil_of_le (by simpa using h2), chunk20Fuel_nil]

theorem rowOfArticle_id (a : Article) (e : Vec) : (rowOfArticle a e).id = a.id := rfl

theorem rowOfArticle_slug (a : Article) (e : Vec) : (rowOfArticle a e).slug = a.slug := rfl

theorem rowOfArticle_title (a : Article) (e : Vec) : (rowOfArticle a e).title = a.title := rfl

theorem rowOfArticle_sourceName (a : Article) (e : Vec) :
    (rowOfArticle a e).sourceName = a.sourceName := rfl

theorem insertRows_step_insert {db : List Row} {touched : List String} {v : Row}
    {vs : List Row}
    (hf : db.find? (fun r => decide (r.id = v.id)) = none)
    (h1 : db.any (fun r => decide (r.slug = v.slug) && decide (r.sourceName = v.sourceName)) = false)
    (h2 : db.any (fun r => decide (r.title = v.title) && decide (r.sourceName = v.sourceName)) = false) :
    insertRows db touched (v :: vs) = insertRows (db ++ [v]) (v.id :: touched) vs := by
  simp [insertRows, hf, h1, h2]

theorem insertRows_step_err_title {db : List Row} {touched : List String} {v : Row}
    {vs : List Row}
    (hf : db.find? (fun r => decide (r.id = v.id)) = none)
    (h1 : db.any (fun r => decide (r.slug = v.slug) && decide (r.sourceName = v.sourceName)) = false)
    (h2 : db.any (fun r => decide (r.title = v.title) && decide (r.sourceName = v.sourceName)) = true) :
    insertRows db touched (v :: vs) = .error .uniqueViolation := by
  simp [insertRows, hf, h1, h2]

theorem semantic_search_ok_elim {cosDist : Vec → Vec → ℚ}
    {ge : List String → Except Unit (List Vec)} {db : List Row} {prompt : String}
    {lim : Nat} {pa pb : Option Int} {res : List (Row × ℚ)}
    (h : semantic_search cosDist ge db prompt lim pa pb = .ok res) :
    ∃ pe rest, ge [prompt] = .ok (pe :: rest) ∧
      res = (((dateFilter pa pb db).map
          (fun r => (r, 1 - cosDist r.embeddings pe))).mergeSort
            (fun a b => decide (b.2 ≤ a.2))).take lim := by
  unfold semantic_search at h
  cases hge : ge [prompt] with
  | error e => rw [hge] at h; exact absurd h (by simp)
  | ok vs =>
      rw [hge] at h
      cases vs with
      | nil => exact absurd h (by simp)
      | cons pe rest => exact ⟨pe, rest, rfl, (Except.ok.inj h).symm⟩

theorem semantic_search_eq {cosDist : Vec → Vec → ℚ}
    {ge : List String → Except Unit (List Vec)} {db : List Row} {prompt : String}
    {lim : Nat} {pa pb : Option Int} {pe : Vec} {rest : List Vec}
    (hge : ge [prompt] = .ok (pe :: rest)) :
    semantic_search cosDist ge db prompt lim pa pb
      = .ok ((((dateFilter pa pb db).map
          (fun r => (r, 1 - cosDist r.embeddings pe))).mergeSort
            (fun a b => decide (b.2 ≤ a.2))).take lim) := by
  unfold semantic_search
  rw [hge]

theorem mem_dateFilter {pa pb : Option Int} {db : List Row} {r : Row}
    (h : r ∈ dateFilter pa pb db) :
    r ∈ db ∧ (∀ t, pa = some t → ∃ p, r.publishedAt = some p ∧ t ≤ p)
      ∧ (∀ t, pb = some t → ∃ p, r.publishedAt = some p ∧ p ≤ t) := by
  unfold dateFilter at h
  rcases List.mem_filter.mp h with ⟨hmem, hcond⟩
  rw [Bool.and_eq_true] at hcond
  refine ⟨hmem, ?_, ?_⟩
  · intro t hpa
    subst hpa
    have h1 := hcond.1
    cases hp : r.publishedAt with
    | none => rw [hp] at h1; simp at h1
    | some p =>
        rw [hp] at h1
        simp only [decide_eq_true_eq] at h1
        exact ⟨p, rfl, h1⟩
  · intro t hpb
    subst hpb
    have h2 := hcond.2
    cases hp : r.publishedAt with
    | none => rw [hp] at h2; simp at h2
    | some p =>
        rw [hp] at h2
        simp only [decide_eq_true_eq] at h2
        exact ⟨p, rfl, h2⟩

theorem dateFilter_none_none (db : List Row) : dateFilter none none db = db := by
  unfold dateFilter
  exact List.filter_eq_self.mpr (fun a _ => rfl)

theorem dateFilter_nil_of_none_match {T1 T2 : Int} {db : List Row}
    (h : ∀ r ∈ db, ∀ t, r.publishedAt = some t → ¬(T1 ≤ t ∧ t ≤ T2)) :
    dateFilter (some T1) (some T2) db = [] := by
  unfold dateFilter
  refine List.filter_eq_nil_iff.mpr ?_
  intro r hr
  cases hp : r.publishedAt with
  | none => simp [hp]
  | some t =>
      have := h r hr t hp
      simp only [hp, Bool.and_eq_true, decide_eq_true_eq]
      intro hcon
      exact this hcon

theorem simDesc_trans :
    ∀ (a b c : Row × ℚ), decide (b.2 ≤ a.2) = true → decide (c.2 ≤ b.2) = true →
      decide (c.2 ≤ a.2) = true := by
  intro a b c h1 h2
  simp only [decide_eq_true_eq] at *
  exact le_trans h2 h1

theorem simDesc_total :
    ∀ (a b : Row × ℚ), (decide (b.2 ≤ a.2) || decide (a.2 ≤ b.2)) = true := by
  intro a b
  simp only [Bool.or_eq_true, decide_eq_true_eq]
  exact le_total b.2 a.2

theorem pubDescLe_trans :
    ∀ (a b c : RawArticle), pubDescLe a b = true → pubDescLe b c = true →
      pubDescLe a c = true := by
  intro a b c h1 h2
  simp only [pubDescLe, decide_eq_true_eq] at *
  exact le_trans h2 h1

theorem pubDescLe_total :
    ∀ (a b : RawArticle), (pubDescLe a b || pubDescLe b a) = true := by
  intro a b
  simp only [pubDescLe, Bool.or_eq_true, decide_eq_true_eq]
  exact le_total _ _

theorem mergeSort_single {α : Type} (a : α) (le : α → α → Bool) :
    List.mergeSort [a] le = [a] :=
  List.perm_singleton.mp (List.mergeSort_perm [a] le)

/-! ### Claim theorems -/

/-- C3: the spec says POST articles search accepts any body with the
required prompt field and optional system_prompt, model, limit,
published_after, published_before, and answers with an answer and a
source list.  In the code the handler reads request.limit,
request.published_after and request.published_before, none of which
SearchRequest declares, so the very first lookup raises AttributeError
and every request — whatever optional fields it carries — is answered
with HTTP 500 instead. -/
theorem C3_search_endpoint_always_500 (happyPath : SearchRequest → ApiOutcome)
    (request : SearchRequest) :
    articles_search_endpoint happyPath request = .httpError 500 := rfl

theorem C3_search_endpoint_witness :
    articles_search_endpoint (fun _ => .ok "" [])
      { prompt := "What are the latest developments in Bitcoin ETFs?" }
      = .httpError 500 :=
  C3_search_endpoint_always_500 (fun _ => .ok "" [])
    { prompt := "What are the latest developments in Bitcoin ETFs?" }

/-- C5: any error raised inside save_articles (embedding failure or INSERT
error) reaches the except clause, which rolls the transaction back and
re-raises: the committed table after the call is exactly the table
before it, so no subset of the batch is persisted. -/
theorem C5_commit_atomic (ge : List String → Except Unit (List Vec))
    (db : List Row) (batch : List Article) (db1 : List Row) (e : SaveErr)
    (h : save_articles ge db batch = (db1, some e)) :
    db1 = db :=
  save_articles_err h

theorem C5_commit_atomic_witness :
    ([] : List Row) = [] ∧ save_articles geFail [] [a3c] = ([], some .embedFail) :=
  ⟨C5_commit_atomic geFail [] [a3c] [] .embedFail (by decide), by decide⟩

/-- C10 (implicit claim): whenever a date bound is supplied to
semantic_search, the SQL comparison on publishedAt is never true for a
NULL value, so every stored row without a date is excluded from the
candidate set; with no bound supplied the date clause admits every row,
null dates included. -/
theorem C10_null_dates_excluded (cosDist : Vec → Vec → ℚ)
    (ge : List String → Except Unit (List Vec)) (db : List Row) (prompt : String)
    (lim : Nat) (pa pb : Option Int) (res : List (Row × ℚ))
    (hb : pa.isSome ∨ pb.isSome)
    (h : semantic_search cosDist ge db prompt lim pa pb = .ok res) :
    (∀ p ∈ res, p.1.publishedAt ≠ none) ∧ dateFilter none none db = db := by
  refine ⟨?_, dateFilter_none_none db⟩
  intro p hp
  rcases semantic_search_ok_elim h with ⟨pe, rest, hge, hres⟩
  subst hres
  have hp2 : p ∈ ((dateFilter pa pb db).map
      (fun r => (r, 1 - cosDist r.embeddings pe))).mergeSort
        (fun a b => decide (b.2 ≤ a.2)) :=
    (List.take_sublist _ _).mem hp
  have hp3 : p ∈ (dateFilter pa pb db).map
      (fun r => (r, 1 - cosDist r.embeddings pe)) :=
    (List.mergeSort_perm _ _).mem_iff.mp hp2
  rcases List.mem_map.mp hp3 with ⟨r, hr, hpr⟩
  rcases mem_dateFilter hr with ⟨_, hafter, hbefore⟩
  subst hpr
  rcases hb with hcase | hcase
  · rcases Option.isSome_iff_exists.mp hcase with ⟨t, ht⟩
    rcases hafter t ht with ⟨q, hq, _⟩
    simp [hq]
  · rcases Option.isSome_iff_exists.mp hcase with ⟨t, ht⟩
    rcases hbefore t ht with ⟨q, hq, _⟩
    simp [hq]

theorem C10_null_dates_excluded_witness :
    (∀ p ∈ [(rowDatedR, (1 : ℚ))], p.1.publishedAt ≠ none) ∧
      dateFilter none none [rowNullR, rowDatedR] = [rowNullR, rowDatedR] :=
  C10_null_dates_excluded cosZero geConst [rowNullR, rowDatedR] "q" 10
    (some 0) none [(rowDatedR, 1)] (Or.inl (by decide))
    (by
      rw [semantic_search_eq (rfl : geConst ["q"] = .ok ([1] :: []))]
      have hdf : dateFilter (some 0) none [rowNullR, rowDatedR] = [rowDatedR] := by decide
      rw [hdf]
      simp only [List.map_cons, List.map_nil]
      rw [mergeSort_single]
      norm_num [cosZero])

/-- C7: with both bounds supplied the date clause admits exactly the rows
whose publishedAt lies between them, bounds inclusive; every returned
row therefore carries a date inside the window, and when no stored row
qualifies the call returns an empty list rather than raising. -/
theorem C7_date_window (cosDist : Vec → Vec → ℚ)
    (ge : List String → Except Unit (List Vec)) (db : List Row) (prompt : String)
    (lim : Nat) (T1 T2 : Int) (pe : Vec) (rest : List Vec)
    (hge : ge [prompt] = .ok (pe :: rest)) :
    ∃ res, semantic_search cosDist ge db prompt lim (some T1) (some T2) = .ok res ∧
      (∀ p ∈ res, ∃ t, p.1.publishedAt = some t ∧ T1 ≤ t ∧ t ≤ T2) ∧
      ((∀ r ∈ db, ∀ t, r.publishedAt = some t → ¬(T1 ≤ t ∧ t ≤ T2)) → res = []) := by
  refine ⟨_, semantic_search_eq hge, ?_, ?_⟩
  · intro p hp
    have hp2 := (List.take_sublist _ _).mem hp
    have hp3 := (List.mergeSort_perm _ _).mem_iff.mp hp2
    rcases List.mem_map.mp hp3 with ⟨r, hr, hpr⟩
    rcases mem_dateFilter hr with ⟨_, hafter, hbefore⟩
    rcases hafter T1 rfl with ⟨q, hq, hq1⟩
    rcases hbefore T2 rfl with ⟨q2, hq2, hq3⟩
    rw [hq] at hq2
    have hqq : q = q2 := Option.some.inj hq2
    subst hqq
    subst hpr
    exact ⟨q, hq, hq1, hq3⟩
  · intro hnone
    rw [dateFilter_nil_of_none_match hnone]
    simp

theorem C7_date_window_witness :
    ∃ res, semantic_search cosZero geConst [rowDatedR] "q" 10
        (some 0) (some 1000) = .ok res ∧
      (∀ p ∈ res, ∃ t, p.1.publishedAt = some t ∧ 0 ≤ t ∧ t ≤ 1000) ∧
      ((∀ r ∈ [rowDatedR], ∀ t, r.publishedAt = some t → ¬(0 ≤ t ∧ t ≤ 1000)) →
        res = []) :=
  C7_date_window cosZero geConst [rowDatedR] "q" 10 0 1000 [1] [] (by decide)

/-- C6: every answer of semantic_search has at most limit entries, is
ordered by similarity descending, and scores each row as one minus the
cosine distance between the stored embeddings column and the prompt
embedding. -/
theorem C6_search_bound (cosDist : Vec → Vec → ℚ)
    (ge : List String → Except Unit (List Vec)) (db : List Row) (prompt : String)
    (lim : Nat) (pa pb : Option Int) (res : List (Row × ℚ))
    (h : semantic_search cosDist ge db prompt lim pa pb = .ok res) :
    res.length ≤ lim ∧
    List.Sorted (fun a b : Row × ℚ => b.2 ≤ a.2) res ∧
    ∃ pe rest, ge [prompt] = .ok (pe :: rest) ∧
      ∀ p ∈ res, p.2 = 1 - cosDist p.1.embeddings pe := by
  rcases semantic_search_ok_elim h with ⟨pe, rest, hge, hres⟩
  subst hres
  refine ⟨List.length_take_le _ _, ?_, pe, rest, hge, ?_⟩
  · have hsorted := @List.sorted_mergeSort (Row × ℚ)
      (fun a b => decide (b.2 ≤ a.2))
      simDesc_trans simDesc_total
      ((dateFilter pa pb db).map (fun r => (r, 1 - cosDist r.embeddings pe)))
    have hsorted2 : List.Sorted (fun a b : Row × ℚ => b.2 ≤ a.2)
        (((dateFilter pa pb db).map
          (fun r => (r, 1 - cosDist r.embeddings pe))).mergeSort
            (fun a b => decide (b.2 ≤ a.2))) :=
      hsorted.imp (fun hab => of_decide_eq_true hab)
    exact hsorted2.sublist (List.take_sublist _ _)
  · intro p hp
    have hp2 := (List.take_sublist _ _).mem hp
    have hp3 := (List.mergeSort_perm _ _).mem_iff.mp hp2
    rcases List.mem_map.mp hp3 with ⟨r, hr, hpr⟩
    subst hpr
    rfl

theorem C6_search_bound_witness :
    ([(rowDatedR, (1 : ℚ))] : List (Row × ℚ)).length ≤ 5 ∧
    List.Sorted (fun a b : Row × ℚ => b.2 ≤ a.2) [(rowDatedR, 1)] ∧
    ∃ pe rest, geConst ["q"] = .ok (pe :: rest) ∧
      ∀ p ∈ [(rowDatedR, (1 : ℚ))], p.2 = 1 - cosZero p.1.embeddings pe :=
  C6_search_bound cosZero geConst [rowDatedR] "q" 5 none none
    [(rowDatedR, 1)]
    (by
      rw [semantic_search_eq (rfl : geConst ["q"] = .ok ([1] :: []))]
      have hdf : dateFilter none none [rowDatedR] = [rowDatedR] := by decide
      rw [hdf]
      simp only [List.map_cons, List.map_nil]
      rw [mergeSort_single]
      norm_num [cosZero])

/-- C4 counterexample: the claim says every batch has size between 20 and
30; a one-text input produces a single batch of size one. -/
theorem C4_batch_size_counterexample :
    ¬ (∀ c ∈ chunk20 ["bitcoin"], 20 ≤ c.length ∧ c.length ≤ 30) := by
  decide

/-- C4 (amended): the loop in save_articles slices the input into
consecutive batches of exactly twenty texts, except a final batch of
between one and twenty; the concatenation of the batches is the input
in order, so with an embedding provider that answers each batch with
one vector per text in order, the value at index i corresponds to the
text at index i; the first failing batch call fails the whole loop, and
when the novel set is nonempty such a failure makes save_articles
surface the error with the committed table unchanged. -/
theorem C4_embedding_batches (ge : List String → Except Unit (List Vec))
    (f : String → Vec)
    (hok : ∀ ts vs, ge ts = .ok vs → vs = ts.map f)
    (texts : List String) :
    (chunk20 texts).flatten = texts ∧
    (∀ c ∈ chunk20 texts, c ≠ [] ∧ c.length ≤ 20) ∧
    (∀ c ∈ (chunk20 texts).dropLast, c.length = 20) ∧
    (∀ vs, embedBatched ge texts = .ok vs → vs = texts.map f) ∧
    (∀ c ∈ chunk20 texts, ∀ e, ge c = .error e →
      ∃ e2, embedBatched ge texts = .error e2) ∧
    (∀ (db : List Row) (batch : List Article) (e : Unit),
      check_duplicates db batch ≠ [] →
      embedBatched ge ((check_duplicates db batch).map (fun a => a.clean_content)) = .error e →
      save_articles ge db batch = (db, some .embedFail)) := by
  refine ⟨chunk20_flatten texts, chunk20_mem texts, chunk20_dropLast texts, ?_, ?_, ?_⟩
  · intro vs h
    exact embedBatched_ok_pointwise hok h
  · intro c hc e he
    exact embedBatched_error hc he
  · intro db batch e hne hemb
    simp only [save_articles]
    rw [if_neg (by simp [List.isEmpty_iff, hne]), hemb]

theorem C4_embedding_batches_witness :
    (chunk20 (List.replicate 21 "t")).flatten = List.replicate 21 "t" :=
  (C4_embedding_batches geConst (fun _ => [1])
    (fun ts vs h => (Except.ok.inj h).symm) (List.replicate 21 "t")).1

/-- C2: after a successful commit of a batch, every candidate of the batch
matches a stored row on id, on slug plus sourceName, or on title plus
sourceName, so committing the same batch again filters every candidate
out, inserts nothing and returns with the table unchanged.  The
embedding provider is assumed to answer each call with one vector per
input text, as its API contract states. -/
theorem C2_idempotent_ingestion (ge : List String → Except Unit (List Vec))
    (hlen : ∀ ts vs, ge ts = .ok vs → vs.length = ts.length)
    (db : List Row) (batch : List Article) (db1 : List Row)
    (h1 : save_articles ge db batch = (db1, none)) :
    check_duplicates db1 batch = [] ∧ save_articles ge db1 batch = (db1, none) := by
  have hall := save_articles_ok_matches hlen h1
  have hnil : check_duplicates db1 batch = [] := by
    unfold check_duplicates
    refine List.filter_eq_nil_iff.mpr ?_
    intro a ha
    simp [hall a ha]
  refine ⟨hnil, ?_⟩
  simp [save_articles, hnil]

theorem C2_idempotent_ingestion_witness :
    save_articles geConst [] [a3c] = ([rowOfArticle a3c [1]], none) ∧
    check_duplicates [rowOfArticle a3c [1]] [a3c] = [] ∧
    save_articles geConst [rowOfArticle a3c [1]] [a3c]
      = ([rowOfArticle a3c [1]], none) := by
  refine ⟨by decide, ?_, ?_⟩
  · exact (C2_idempotent_ingestion geConst
      (fun ts vs h => by rw [← Except.ok.inj h]; simp [geConst])
      [] [a3c] [rowOfArticle a3c [1]] (by decide)).1
  · exact (C2_idempotent_ingestion geConst
      (fun ts vs h => by rw [← Except.ok.inj h]; simp [geConst])
      [] [a3c] [rowOfArticle a3c [1]] (by decide)).2

/-- C1 counterexample: for the batch of the spec scenario (two candidates
with the same title and sourceName, distinct ids) against an empty
store, the run fails — the surfaced error is a unique-constraint
violation — and nothing at all is persisted, so the first candidate is
not kept and the second is not skipped as a duplicate. -/
theorem C1_dup_title_counterexample :
    (save_articles geConst [] [a1c, a2c]).2 = some .uniqueViolation ∧
    (save_articles geConst [] [a1c, a2c]).1 = [] := by
  decide

/-- C1 (amended): check_duplicates compares candidates only against stored
rows, never against one another, so both candidates stay in the insert
set; the INSERT declares conflict target id only, hence the second
value row violates the title+sourceName unique constraint, the
statement raises, the whole batch is rolled back (committed table
unchanged, neither candidate persisted) and the error is surfaced. -/
theorem C1_dup_title_in_batch_aborts
    (ge : List String → Except Unit (List Vec)) (db : List Row)
    (a1 a2 : Article) (v1 v2 : Vec)
    (hm1 : matchesExisting db a1 = false) (hm2 : matchesExisting db a2 = false)
    (hid : a1.id ≠ a2.id) (hslug : a1.slug ≠ a2.slug)
    (htitle : a1.title = a2.title) (hsrc : a1.sourceName = a2.sourceName)
    (hge : ge [a1.clean_content, a2.clean_content] = .ok [v1, v2]) :
    save_articles ge db [a1, a2] = (db, some .uniqueViolation) := by
  have hcd : check_duplicates db [a1, a2] = [a1, a2] := by
    unfold check_duplicates
    simp [List.filter_cons, hm1, hm2]
  have hemb : embedBatched ge ([a1, a2].map (fun a => a.clean_content))
      = .ok [v1, v2] := by
    have hch : chunk20 [a1.clean_content, a2.clean_content]
        = [[a1.clean_content, a2.clean_content]] :=
      chunk20_small _ (by simp) (by simp)
    simp only [List.map_cons, List.map_nil]
    unfold embedBatched
    rw [hch]
    simp [embedChunks, hge]
  have hfacts1 := matchesExisting_false hm1
  have hfacts2 := matchesExisting_false hm2
  have hf1 : db.find? (fun r => decide (r.id = (rowOfArticle a1 v1).id)) = none := by
    refine List.find?_eq_none.mpr ?_
    intro r hr
    simp [rowOfArticle_id, (hfacts1 r hr).1]
  have hs1 : db.any (fun r => decide (r.slug = (rowOfArticle a1 v1).slug)
      && decide (r.sourceName = (rowOfArticle a1 v1).sourceName)) = false := by
    refine List.any_eq_false.mpr ?_
    intro r hr
    simp only [rowOfArticle_slug, rowOfArticle_sourceName, Bool.and_eq_true,
      decide_eq_true_eq]
    exact fun hcon => (hfacts1 r hr).2.1 hcon
  have ht1 : db.any (fun r => decide (r.title = (rowOfArticle a1 v1).title)
      && decide (r.sourceName = (rowOfArticle a1 v1).sourceName)) = false := by
    refine List.any_eq_false.mpr ?_
    intro r hr
    simp only [rowOfArticle_title, rowOfArticle_sourceName, Bool.and_eq_true,
      decide_eq_true_eq]
    exact fun hcon => (hfacts1 r hr).2.2 hcon
  have hstep1 : insertRows db [] [rowOfArticle a1 v1, rowOfArticle a2 v2]
      = insertRows (db ++ [rowOfArticle a1 v1])
          ((rowOfArticle a1 v1).id :: []) [rowOfArticle a2 v2] :=
    insertRows_step_insert hf1 hs1 ht1
  have hf2 : (db ++ [rowOfArticle a1 v1]).find?
      (fun r => decide (r.id = (rowOfArticle a2 v2).id)) = none := by
    refine List.find?_eq_none.mpr ?_
    intro r hr
    rcases List.mem_append.mp hr with h | h
    · simp [rowOfArticle_id, (hfacts2 r h).1]
    · rw [List.mem_singleton] at h
      subst h
      simp only [rowOfArticle_id, decide_eq_true_eq]
      exact hid
  have hs2 : (db ++ [rowOfArticle a1 v1]).any
      (fun r => decide (r.slug = (rowOfArticle a2 v2).slug)
        && decide (r.sourceName = (rowOfArticle a2 v2).sourceName)) = false := by
    rw [List.any_append]
    have hleft : db.any (fun r => decide (r.slug = (rowOfArticle a2 v2).slug)
        && decide (r.sourceName = (rowOfArticle a2 v2).sourceName)) = false := by
      refine List.any_eq_false.mpr ?_
      intro r hr
      simp only [rowOfArticle_slug, rowOfArticle_sourceName, Bool.and_eq_true,
        decide_eq_true_eq]
      exact fun hcon => (hfacts2 r hr).2.1 hcon
    rw [hleft]
    simp [rowOfArticle_slug, rowOfArticle_sourceName, hslug]
  have ht2 : (db ++ [rowOfArticle a1 v1]).any
      (fun r => decide (r.title = (rowOfArticle a2 v2).title)
        && decide (r.sourceName = (rowOfArticle a2 v2).sourceName)) = true := by
    rw [List.any_append]
    refine Bool.or_eq_true_iff.mpr (Or.inr ?_)
    simp [rowOfArticle_title, rowOfArticle_sourceName, htitle, hsrc]
  have hstep2 : insertRows (db ++ [rowOfArticle a1 v1])
      ((rowOfArticle a1 v1).id :: []) [rowOfArticle a2 v2]
      = .error .uniqueViolation :=
    insertRows_step_err_title hf2 hs2 ht2
  simp only [save_articles, hcd]
  rw [if_neg (by simp)]
  rw [hemb]
  simp only [List.zip_cons_cons, List.zip_nil_right, List.map_cons, List.map_nil]
  rw [hstep1, hstep2]

theorem C1_dup_title_in_batch_aborts_witness :
    save_articles geConst [] [a1c, a2c] = ([], some .uniqueViolation) :=
  C1_dup_title_in_batch_aborts geConst [] a1c a2c [1] [1]
    (by decide) (by decide) (by decide) (by decide) (by decide) (by decide)
    (by decide)

/-- C8 counterexample: an article with a parseable publication date far
outside the recency window is retained by the code (the exclusion is
commented out), while the claimed batch excludes it: with a parser that
reads the date as time 0, now 1000 and a 60-minute window, the code
keeps the article and the spec-described batch drops it. -/
theorem C8_recency_counterexample :
    filter_articles_by_time [rawOldC8] 60
      ≠ specRecencyBatch parseC8 1000 60 [rawOldC8] := by
  decide

/-- C8 (amended): after fan-in every collected article is retained —
the recency-window exclusion is disabled in this source version — and
each article's clean_content is derived from its content by stripping
URLs, replacing non-alphabetic characters, collapsing whitespace and
lowercasing: every character of the result is a lowercase ASCII letter
or a space, no two spaces are adjacent, and the text neither starts nor
ends with a space. -/
theorem C8_batch_enrichment (articles : List RawArticle) (pm : Nat) :
    filter_articles_by_time articles pm
      = articles.map (fun a => { a with clean_content := clean_content a.content }) ∧
    ∀ a ∈ filter_articles_by_time articles pm,
      (∀ c ∈ a.clean_content.data, (97 ≤ c.toNat ∧ c.toNat ≤ 122) ∨ c = ' ') ∧
      List.Chain' NoDoubleSpace a.clean_content.data ∧
      (∀ c, a.clean_content.data.head? = some c → c ≠ ' ') ∧
      (∀ c, a.clean_content.data.getLast? = some c → c ≠ ' ') := by
  refine ⟨rfl, ?_⟩
  intro a ha
  unfold filter_articles_by_time at ha
  rcases List.mem_map.mp ha with ⟨b, _, hba⟩
  subst hba
  exact ⟨clean_content_chars, clean_content_chain,
    clean_content_head_not_space, clean_content_getLast_not_space⟩

theorem C8_batch_enrichment_witness :
    filter_articles_by_time [rawOldC8] 60
      = [{ rawOldC8 with clean_content := clean_content rawOldC8.content }] :=
  (C8_batch_enrichment [rawOldC8] 60).1

/-- C9 counterexample: a batch holding one article without publishedAt and
one with it makes the final sort of run_all_scrapers compare None with
a string, which raises TypeError: the run fails instead of returning a
batch with the undated article placed last. -/
theorem C9_missing_date_counterexample :
    run_all_scrapers [[rawNone9, rawSome9]] 60 = .typeErr := by
  decide

/-- C9 (amended): when every collected article carries a publishedAt value
the batch of run_all_scrapers is a permutation of the enriched
collection sorted by the publishedAt string descending; when the batch
has two or more articles and any lacks the value, the sort raises
TypeError (the run fails) instead of ordering missing dates last. -/
theorem C9_sorted_desc_when_dates_present (results : List (List RawArticle))
    (pm : Nat) (hdates : ∀ a ∈ results.flatten, a.publishedAt ≠ none) :
    ∃ batch, run_all_scrapers results pm = .ok batch ∧
      batch.Perm (filter_articles_by_time results.flatten pm) ∧
      List.Sorted (fun a b : RawArticle =>
        (b.publishedAt.getD "") ≤ (a.publishedAt.getD "")) batch := by
  have hany : (filter_articles_by_time results.flatten pm).any
      (fun a => a.publishedAt.isNone) = false := by
    refine List.any_eq_false.mpr ?_
    intro a ha
    unfold filter_articles_by_time at ha
    rcases List.mem_map.mp ha with ⟨b, hb, hba⟩
    subst hba
    cases hpb : b.publishedAt with
    | none => exact absurd hpb (hdates b hb)
    | some t => simp [hpb]
  refine ⟨(filter_articles_by_time results.flatten pm).mergeSort pubDescLe,
    ?_, List.mergeSort_perm _ _, ?_⟩
  · simp [run_all_scrapers, sortByPublishedAtDesc, hany]
  · have hs := List.sorted_mergeSort pubDescLe_trans pubDescLe_total
      (filter_articles_by_time results.flatten pm)
    exact hs.imp (fun hab => by simpa [pubDescLe] using hab)

theorem C9_sorted_desc_witness :
    ∃ batch, run_all_scrapers [[rawSome9], []] 60 = .ok batch ∧
      batch.Perm (filter_articles_by_time ([[rawSome9], []]).flatten 60) ∧
      List.Sorted (fun a b : RawArticle =>
        (b.publishedAt.getD "") ≤ (a.publishedAt.getD "")) batch :=
  C9_sorted_desc_when_dates_present [[rawSome9], []] 60 (by decide)

end Cwtr
